import Mathlib

/-!
Shallow embedding of the market-stress scoring pipeline of
`src/market_stress_engine.py` (with the business-day computation shared by
`src/dashboard_app.py`), over exact real arithmetic.

Modelling conventions:
* floating-point numbers are modelled by `ℝ`;
* `math.erf` is an external transcendental routine, so every definition that
  uses it is parametrised by a function `erf : ℝ → ℝ`; the fact that the true
  error function is monotone becomes an explicit hypothesis where needed;
* a pandas `Series` cell that may be NaN is modelled by `Option ℝ`
  (`none` = NaN);
* provider (`yfinance`) results are modelled by `Except String (List ℝ)`:
  either a list of closing prices or a transport error;
* calendar dates are modelled by `ℤ`, counting days from an epoch that falls
  on a Monday, so day `d` is a Saturday iff `d % 7 = 5` and a Sunday iff
  `d % 7 = 6`.
-/

namespace MarketStress

/-- `np.mean(values)`: arithmetic mean (sum divided by length). -/
noncomputable def npMean (l : List ℝ) : ℝ := l.sum / l.length

/-- `np.std(values)`: numpy's default standard deviation of the sample
(`ddof = 0`, divisor `N`): the square root of the mean squared deviation. -/
noncomputable def npStd (l : List ℝ) : ℝ :=
  Real.sqrt ((l.map (fun x => (x - npMean l) ^ 2)).sum / l.length)

/-- `pandas.Series.rolling(...).std()` uses `ddof = 1` (divisor `N - 1`). -/
noncomputable def sampleStd (l : List ℝ) : ℝ :=
  Real.sqrt ((l.map (fun x => (x - npMean l) ^ 2)).sum / ((l.length : ℝ) - 1))

/-- `Indicator.scale_with_history(values, current)` from
`src/market_stress_engine.py` lines 96-107: neutral 50 on fewer than 10
history values or near-zero spread, otherwise the z-score of `current`
mapped through the Gaussian CDF, scaled to 0-100 and clamped. -/
noncomputable def scale_with_history (erf : ℝ → ℝ) (values : List ℝ)
    (current : ℝ) : ℝ :=
  if values.length < 10 then 50
  else if npStd values < 1e-8 then 50
  else
    max 0 (min 100
      (0.5 * (1 + erf ((current - npMean values) / npStd values / Real.sqrt 2)) * 100))

/-- The spec's Gaussian CDF: `Φ(z) = 0.5 × (1 + erf(z/√2))` (spec §4.2,
step 5).  Stated from the spec's words, to be compared with the code's
`scale_with_history`. -/
noncomputable def Phi (erf : ℝ → ℝ) (z : ℝ) : ℝ :=
  0.5 * (1 + erf (z / Real.sqrt 2))

/-- The simple return between a consecutive pair of closes,
`(p_i - p_{i-1}) / p_{i-1}`, as computed by `pct_change`. -/
noncomputable def ret (pc : ℝ × ℝ) : ℝ := (pc.2 - pc.1) / pc.1

/-- `df["Close"].pct_change()`: a series of the same length as the prices,
whose first cell is NaN and whose cell `i` (for `i ≥ 1`) is the simple
return between closes `i-1` and `i`. -/
noncomputable def pctChange (prices : List ℝ) : List (Option ℝ) :=
  match prices with
  | [] => []
  | _ :: _ => none :: (prices.zip prices.tail).map (fun pc => some (ret pc))

/-- One window of `rolling(window=10).std()`: pandas emits a value exactly
when the window holds at least `min_periods = 10` non-NaN observations
(so here: all 10 cells defined), and that value is the `ddof = 1` standard
deviation of the defined observations. -/
noncomputable def rollWindow (w : List (Option ℝ)) : Option ℝ :=
  if 10 ≤ (w.filterMap id).length then some (sampleStd (w.filterMap id))
  else none

/-- The trailing window of (at most) 10 cells ending at index `i`. -/
def window10 (xs : List (Option ℝ)) (i : ℕ) : List (Option ℝ) :=
  (xs.take (i + 1)).drop (i + 1 - 10)

/-- `returns.rolling(window=10).std()`: the windowed standard deviation at
every index of the input series. -/
noncomputable def rollingStd10 (xs : List (Option ℝ)) : List (Option ℝ) :=
  (List.range xs.length).map (fun i => rollWindow (window10 xs i))

/-- `volatility = returns.rolling(window=10).std() * 100`
(`src/market_stress_engine.py` line 120). -/
noncomputable def volatilitySeries (prices : List ℝ) : List (Option ℝ) :=
  (rollingStd10 (pctChange prices)).map (Option.map (fun v => v * 100))

/-- `vol_series = volatility.dropna().values` (line 121). -/
noncomputable def volSeries (prices : List ℝ) : List ℝ :=
  (volatilitySeries prices).filterMap id

/-- `current_vol = volatility.iloc[-1]` (line 122): the last cell of the
rolling series, which may itself be NaN; `none` when the series is empty
(in `calculate` the length guard makes that case unreachable) or when the
last cell is NaN. -/
noncomputable def currentVol (prices : List ℝ) : Option ℝ :=
  ((volatilitySeries prices).getLast?).join

/-- What `scale_with_history` evaluates to when `current` is NaN: the two
guards fire as usual, and otherwise `sc` is NaN and Python's
`max(0, min(100, nan))` evaluates to `100` (each two-argument comparison
against NaN is false, so `min` keeps `100` and `max` then picks it). -/
noncomputable def scaleNaNCurrent (values : List ℝ) : ℝ :=
  if values.length < 10 then 50
  else if npStd values < 1e-8 then 50
  else 100

/-- `VolatilityIndicator.calculate` (lines 115-123): neutral 50 when the
fetched frame is empty or shorter than 10 rows, otherwise normalise the
latest rolling volatility against the dropna'd rolling series. -/
noncomputable def calculate (erf : ℝ → ℝ) (prices : List ℝ) : ℝ :=
  if prices.length < 10 then 50
  else
    match currentVol prices with
    | some c => scale_with_history erf (volSeries prices) c
    | none => scaleNaNCurrent (volSeries prices)

/-- The eight configured instruments, in the fixed `TICKERS` dict order
(lines 37-46). -/
def TICKERS : List String :=
  ["EURUSD=X", "GC=F", "CL=F", "DX-Y.NYB", "^BCOM", "^SPGSCI", "^VIX", "^GVZ"]

/-- The shipped `WEIGHTS` table (lines 54-63); `WEIGHTS.get(t, 0.0)` is
modelled by the catch-all `0` case. -/
noncomputable def WEIGHTS : String → ℝ
  | "EURUSD=X" => 0.07
  | "GC=F" => 0.10
  | "CL=F" => 0.10
  | "DX-Y.NYB" => 0.05
  | "^BCOM" => 0.10
  | "^SPGSCI" => 0.10
  | "^VIX" => 0.23
  | "^GVZ" => 0.25
  | _ => 0

/-- `DataManager.get_history` (lines 77-83): a provider error is caught and
converted to an empty frame; the result type is total, so no exception ever
reaches the caller. -/
def get_history (fetch : String → Except String (List ℝ))
    (t : String) : List ℝ :=
  match fetch t with
  | Except.ok l => l
  | Except.error _ => []

/-- The per-instrument loop of `CompositeStress.compute` (lines 134-140):
each indicator's `calculate` runs under `try/except`, and a raised exception
(`Except.error`) is replaced by the neutral score 50. -/
def computeScores (calcE : String → Except String ℝ) : List ℝ :=
  TICKERS.map (fun t =>
    match calcE t with
    | Except.ok v => v
    | Except.error _ => 50)

/-- The aggregation step of `CompositeStress.compute` (lines 142-150):
`np.average(values, weights)` when the weights sum to a positive total,
otherwise `np.mean(values)`; the result clamped to `[0, 100]`. -/
noncomputable def aggregate (scores : List ℝ) (weights : List ℝ) : ℝ :=
  max 0 (min 100
    (if weights.sum > 0 then
      (List.zipWith (fun w v => w * v) weights scores).sum / weights.sum
    else scores.sum / scores.length))

/-- `CompositeStress.compute` (lines 133-151), with the module-level weight
table passed as explicit configuration (spec §9) and the per-instrument
scoring outcome abstracted as `calcE`.  Returns the composite and the
per-instrument score vector. -/
noncomputable def compute (wf : String → ℝ)
    (calcE : String → Except String ℝ) : ℝ × List ℝ :=
  (aggregate (computeScores calcE) (TICKERS.map wf), computeScores calcE)

/-- The whole scoring pipeline on a provider: fetch each instrument's
history through `get_history` and score it with `calculate`; the shipped
program runs it with `wf := WEIGHTS`. -/
noncomputable def computeFromFetch (wf : String → ℝ) (erf : ℝ → ℝ)
    (fetch : String → Except String (List ℝ)) : ℝ × List ℝ :=
  compute wf (fun t => Except.ok (calculate erf (get_history fetch t)))

/-- Day `d` (days since a Monday epoch) is a weekday. -/
def isBusinessDay (d : ℤ) : Prop := d % 7 < 5

instance (d : ℤ) : Decidable (isBusinessDay d) := by
  unfold isBusinessDay; infer_instance

/-- pandas `BDay().rollback`: the latest business day on or before `d`. -/
def rollbackBDay (d : ℤ) : ℤ :=
  if d % 7 = 5 then d - 1 else if d % 7 = 6 then d - 2 else d

/-- Stepping one `BDay` back from a business day `d`. -/
def prevBDay (d : ℤ) : ℤ := if d % 7 = 0 then d - 3 else d - 1

/-- `pd.bdate_range(end=e, periods=2)[-2]`
(`src/market_stress_engine.py` line 280, `src/dashboard_app.py` line 108):
pandas first rolls a non-business `end` back onto the business-day offset,
then generates two business days ending there; index `[-2]` is therefore one
`BDay` before the rolled-back end. -/
def lastBusinessDayCode (e : ℤ) : ℤ := prevBDay (rollbackBDay e)

/-- Modelled from the spec's words (§4.4): "the last business day strictly
before `referenceEndDate`", i.e. the latest business day on or before the
preceding calendar day. -/
def lastBusinessDaySpec (e : ℤ) : ℤ := rollbackBDay (e - 1)

/-- C1: whenever the history `H` has at least 10 values and its standard
deviation is at least `1e-8`, `scale_with_history` returns exactly
`100 × Φ((c − m)/s)` clamped to `[0, 100]`, with `m` the mean and `s` the
standard deviation of the sample `H`. -/
theorem scale_with_history_formula (erf : ℝ → ℝ) (H : List ℝ) (c : ℝ)
    (hlen : 10 ≤ H.length) (hs : 1e-8 ≤ npStd H) :
    scale_with_history erf H c =
      max 0 (min 100 (100 * Phi erf ((c - npMean H) / npStd H))) := by
  unfold scale_with_history Phi
  rw [if_neg (by omega), if_neg (not_lt.mpr hs)]
  congr 2
  ring

/-- Witness for C1 at the history `[0,…,0,10]` (ten values, mean 1,
standard deviation 3) and current reading 2. -/
theorem scale_with_history_formula_witness :
    scale_with_history (fun x => x) [0, 0, 0, 0, 0, 0, 0, 0, 0, 10] 2 =
      max 0 (min 100 (100 * Phi (fun x => x)
        ((2 - npMean [0, 0, 0, 0, 0, 0, 0, 0, 0, 10]) /
          npStd [0, 0, 0, 0, 0, 0, 0, 0, 0, 10]))) := by
  refine scale_with_history_formula (fun x => x) _ 2 (by simp) ?_
  have h9 : ((([0, 0, 0, 0, 0, 0, 0, 0, 0, 10] : List ℝ).map
      (fun x => (x - npMean [0, 0, 0, 0, 0, 0, 0, 0, 0, 10]) ^ 2)).sum /
      (([0, 0, 0, 0, 0, 0, 0, 0, 0, 10] : List ℝ).length : ℝ)) = 9 := by
    norm_num [npMean]
  rw [npStd, h9, show (9 : ℝ) = 3 ^ 2 by norm_num, Real.sqrt_sq (by norm_num)]
  norm_num

/-- C2: the scorer degrades to the neutral score exactly: fewer than 10
price observations, fewer than 10 defined history values, or a history
standard deviation below `1e-8` all yield exactly 50, for every current
reading; all the functions involved are total, so no failure is possible. -/
theorem score_neutral_degradation (erf : ℝ → ℝ) :
    (∀ prices : List ℝ, prices.length < 10 → calculate erf prices = 50) ∧
    (∀ (H : List ℝ) (c : ℝ), H.length < 10 → scale_with_history erf H c = 50) ∧
    (∀ (H : List ℝ) (c : ℝ), npStd H < 1e-8 → scale_with_history erf H c = 50) := by
  refine ⟨fun prices h => ?_, fun H c h => ?_, fun H c h => ?_⟩
  · unfold calculate; rw [if_pos h]
  · unfold scale_with_history; rw [if_pos h]
  · unfold scale_with_history
    by_cases hl : H.length < 10
    · rw [if_pos hl]
    · rw [if_neg hl, if_pos h]

/-- Witness for C2: a two-point price series, a two-point history and a
constant ten-point history all score 50. -/
theorem score_neutral_degradation_witness :
    calculate (fun x => x) [1, 2] = 50 ∧
    scale_with_history (fun x => x) [1, 2] 7 = 50 ∧
    scale_with_history (fun x => x) [3, 3, 3, 3, 3, 3, 3, 3, 3, 3] 7 = 50 := by
  refine ⟨(score_neutral_degradation (fun x => x)).1 [1, 2] (by simp),
    (score_neutral_degradation (fun x => x)).2.1 [1, 2] 7 (by simp),
    (score_neutral_degradation (fun x => x)).2.2 _ 7 ?_⟩
  have hm : npMean [3, 3, 3, 3, 3, 3, 3, 3, 3, 3] = 3 := by norm_num [npMean]
  rw [npStd, hm]
  norm_num

/-- C4: holding the history fixed, `scale_with_history` is monotonically
non-decreasing in the current reading (given that the error function is
monotone). -/
theorem scale_monotone_in_current (erf : ℝ → ℝ) (H : List ℝ) (c1 c2 : ℝ)
    (hmono : Monotone erf) (h12 : c1 ≤ c2) :
    scale_with_history erf H c1 ≤ scale_with_history erf H c2 := by
  unfold scale_with_history
  by_cases hl : H.length < 10
  · rw [if_pos hl, if_pos hl]
  · rw [if_neg hl, if_neg hl]
    by_cases hs : npStd H < 1e-8
    · rw [if_pos hs, if_pos hs]
    · rw [if_neg hs, if_neg hs]
      have hspos : 0 < npStd H := lt_of_lt_of_le (by norm_num) (not_lt.mp hs)
      have hz : (c1 - npMean H) / npStd H ≤ (c2 - npMean H) / npStd H :=
        (div_le_div_iff_of_pos_right hspos).mpr (by linarith)
      have hz2 : (c1 - npMean H) / npStd H / Real.sqrt 2 ≤
          (c2 - npMean H) / npStd H / Real.sqrt 2 :=
        (div_le_div_iff_of_pos_right (Real.sqrt_pos.mpr (by norm_num))).mpr hz
      have he := hmono hz2
      exact max_le_max le_rfl (min_le_min le_rfl (by nlinarith))

/-- Witness for C4 with the identity in place of `erf`, an empty history and
readings 0 ≤ 1. -/
theorem scale_monotone_in_current_witness :
    scale_with_history (fun x => x) [] 0 ≤ scale_with_history (fun x => x) [] 1 :=
  scale_monotone_in_current (fun x => x) [] 0 1 monotone_id (by norm_num)

/-- C5 (amended): for every reference end date that is itself a business
day, the code's comparison end (`pd.bdate_range(end=e, periods=2)[-2]`) is
exactly the last business day strictly before that date; in particular a
Monday's comparison range ends on the preceding Friday.  (For weekend
reference dates the code instead ends two business days back, see the
counterexample.) -/
theorem last_business_day_weekday (e : ℤ) (he : isBusinessDay e) :
    (isBusinessDay (lastBusinessDayCode e) ∧ lastBusinessDayCode e < e ∧
     (∀ d : ℤ, lastBusinessDayCode e < d → d < e → ¬ isBusinessDay d) ∧
     lastBusinessDayCode e = lastBusinessDaySpec e) ∧
    (e % 7 = 0 → lastBusinessDayCode e = e - 3 ∧ (e - 3) % 7 = 4) := by
  unfold lastBusinessDayCode lastBusinessDaySpec prevBDay rollbackBDay
  unfold isBusinessDay at he ⊢
  refine ⟨⟨?_, ?_, fun d h1 h2 => ?_, ?_⟩, fun h0 => ⟨?_, ?_⟩⟩ <;> omega

/-- Witness for C5 at the Monday `e = 7`: the comparison range ends three
days earlier, on the Friday `4`. -/
theorem last_business_day_weekday_witness :
    isBusinessDay (lastBusinessDayCode 7) ∧
    lastBusinessDayCode 7 = 7 - 3 ∧ ((7 : ℤ) - 3) % 7 = 4 :=
  ⟨(last_business_day_weekday 7 (by decide)).1.1,
   (last_business_day_weekday 7 (by decide)).2 (by decide)⟩

/-- C5 counterexample: day 5 is a Saturday; the last business day strictly
before it is day 4 (the Friday), but the code's comparison range ends on
day 3 (the Thursday), because pandas first rolls the Saturday back to
Friday and then steps one further business day back. -/
theorem last_business_day_weekend_cex :
    lastBusinessDayCode 5 = 3 ∧ lastBusinessDaySpec 5 = 4 ∧
    isBusinessDay 4 ∧ (3 : ℤ) < 4 ∧ (4 : ℤ) < 5 := by
  refine ⟨?_, ?_, by decide, by norm_num, by norm_num⟩ <;> decide

/-- Every nonempty list of reals has a least and a greatest element. -/
theorem exists_min_max (l : List ℝ) (h : l ≠ []) :
    ∃ lo hi, lo ∈ l ∧ hi ∈ l ∧ ∀ x ∈ l, lo ≤ x ∧ x ≤ hi := by
  induction l with
  | nil => exact absurd rfl h
  | cons a t ih =>
    cases t with
    | nil => exact ⟨a, a, by simp, by simp, by simp⟩
    | cons b t2 =>
      obtain ⟨lo, hi, hlo, hhi, hb⟩ := ih (by simp)
      refine ⟨min a lo, max a hi, ?_, ?_, ?_⟩
      · rcases le_total a lo with hc | hc
        · simp [min_eq_left hc]
        · rw [min_eq_right hc]; exact List.mem_cons_of_mem _ hlo
      · rcases le_total a hi with hc | hc
        · rw [max_eq_right hc]; exact List.mem_cons_of_mem _ hhi
        · simp [max_eq_left hc]
      · intro x hx
        rcases List.mem_cons.mp hx with rfl | hx
        · exact ⟨min_le_left _ _, le_max_left _ _⟩
        · obtain ⟨h1, h2⟩ := hb x hx
          exact ⟨le_trans (min_le_right _ _) h1, le_trans h2 (le_max_right _ _)⟩

/-- A weighted sum with non-negative weights respects an upper bound on the
values. -/
theorem zipWith_sum_le_mul (ws vs : List ℝ) (hi : ℝ)
    (hlen : ws.length = vs.length) (hw : ∀ w ∈ ws, 0 ≤ w)
    (hv : ∀ v ∈ vs, v ≤ hi) :
    (List.zipWith (fun w v => w * v) ws vs).sum ≤ hi * ws.sum := by
  induction ws generalizing vs with
  | nil => simp
  | cons w ws' ih =>
    cases vs with
    | nil => simp at hlen
    | cons v vs' =>
      simp only [List.zipWith_cons_cons, List.sum_cons]
      have h1 : w * v ≤ w * hi :=
        mul_le_mul_of_nonneg_left (hv v (by simp)) (hw w (by simp))
      have h2 := ih vs' (by simpa using hlen)
        (fun x hx => hw x (List.mem_cons_of_mem _ hx))
        (fun x hx => hv x (List.mem_cons_of_mem _ hx))
      nlinarith [h1, h2]

/-- A weighted sum with non-negative weights respects a lower bound on the
values. -/
theorem mul_le_zipWith_sum (ws vs : List ℝ) (lo : ℝ)
    (hlen : ws.length = vs.length) (hw : ∀ w ∈ ws, 0 ≤ w)
    (hv : ∀ v ∈ vs, lo ≤ v) :
    lo * ws.sum ≤ (List.zipWith (fun w v => w * v) ws vs).sum := by
  induction ws generalizing vs with
  | nil => simp
  | cons w ws' ih =>
    cases vs with
    | nil => simp at hlen
    | cons v vs' =>
      simp only [List.zipWith_cons_cons, List.sum_cons]
      have h1 : w * lo ≤ w * v :=
        mul_le_mul_of_nonneg_left (hv v (by simp)) (hw w (by simp))
      have h2 := ih vs' (by simpa using hlen)
        (fun x hx => hw x (List.mem_cons_of_mem _ hx))
        (fun x hx => hv x (List.mem_cons_of_mem _ hx))
      nlinarith [h1, h2]

/-- The unclamped composite (weighted average, or plain mean when the total
weight is not positive) stays between any bounds enclosing the scores. -/
theorem composite_core_between (scores weights : List ℝ) (lo hi : ℝ)
    (hlen : weights.length = scores.length) (hne : scores ≠ [])
    (hw : ∀ w ∈ weights, 0 ≤ w) (hb : ∀ x ∈ scores, lo ≤ x ∧ x ≤ hi) :
    lo ≤ (if weights.sum > 0 then
            (List.zipWith (fun w v => w * v) weights scores).sum / weights.sum
          else scores.sum / scores.length) ∧
    (if weights.sum > 0 then
        (List.zipWith (fun w v => w * v) weights scores).sum / weights.sum
      else scores.sum / scores.length) ≤ hi := by
  have hnlen : 0 < scores.length := List.length_pos.mpr hne
  by_cases htot : weights.sum > 0
  · rw [if_pos htot]
    constructor
    · rw [le_div_iff₀ htot]
      have := mul_le_zipWith_sum weights scores lo hlen hw
        (fun x hx => (hb x hx).1)
      linarith
    · rw [div_le_iff₀ htot]
      have := zipWith_sum_le_mul weights scores hi hlen hw
        (fun x hx => (hb x hx).2)
      linarith
  · rw [if_neg htot]
    have hn : (0 : ℝ) < scores.length := by exact_mod_cast hnlen
    constructor
    · rw [le_div_iff₀ hn]
      have := List.card_nsmul_le_sum scores lo (fun x hx => (hb x hx).1)
      rw [nsmul_eq_mul] at this
      linarith
    · rw [div_le_iff₀ hn]
      have := List.sum_le_card_nsmul scores hi (fun x hx => (hb x hx).2)
      rw [nsmul_eq_mul] at this
      linarith

/-- Clamping to `[0, 100]` is the identity on values already in range. -/
theorem clamp_id (x : ℝ) (h0 : 0 ≤ x) (h100 : x ≤ 100) :
    max 0 (min 100 x) = x := by
  rw [min_eq_right h100, max_eq_right h0]

/-- When the scores already sit in `[0, 100]` and the weights are
non-negative, the final clamp of `aggregate` is the identity. -/
theorem aggregate_unclamped (scores weights : List ℝ)
    (hlen : weights.length = scores.length) (hne : scores ≠ [])
    (hw : ∀ w ∈ weights, 0 ≤ w) (hs : ∀ x ∈ scores, 0 ≤ x ∧ x ≤ 100) :
    aggregate scores weights =
      (if weights.sum > 0 then
        (List.zipWith (fun w v => w * v) weights scores).sum / weights.sum
      else scores.sum / scores.length) := by
  obtain ⟨h0, h100⟩ := composite_core_between scores weights 0 100 hlen hne hw hs
  unfold aggregate
  exact clamp_id _ h0 h100

/-- `aggregate` is clamped: its result is always within `[0, 100]`. -/
theorem aggregate_clamped (scores weights : List ℝ) :
    0 ≤ aggregate scores weights ∧ aggregate scores weights ≤ 100 := by
  unfold aggregate
  exact ⟨le_max_left _ _, max_le (by norm_num) (min_le_left _ _)⟩

/-- `scale_with_history` always lands in `[0, 100]`. -/
theorem scale_bounds (erf : ℝ → ℝ) (H : List ℝ) (c : ℝ) :
    0 ≤ scale_with_history erf H c ∧ scale_with_history erf H c ≤ 100 := by
  unfold scale_with_history
  split_ifs
  · norm_num
  · norm_num
  · exact ⟨le_max_left _ _, max_le (by norm_num) (min_le_left _ _)⟩

/-- The NaN-current fallback also lands in `[0, 100]`. -/
theorem scaleNaN_bounds (H : List ℝ) :
    0 ≤ scaleNaNCurrent H ∧ scaleNaNCurrent H ≤ 100 := by
  unfold scaleNaNCurrent
  split_ifs <;> norm_num

/-- `calculate` always lands in `[0, 100]`. -/
theorem calculate_bounds (erf : ℝ → ℝ) (prices : List ℝ) :
    0 ≤ calculate erf prices ∧ calculate erf prices ≤ 100 := by
  unfold calculate
  split_ifs
  · norm_num
  · cases hcv : currentVol prices
    · simpa using scaleNaN_bounds (volSeries prices)
    · simpa using scale_bounds erf (volSeries prices) _

/-- The shipped weight list, evaluated. -/
theorem weights_list_eval :
    TICKERS.map WEIGHTS = [0.07, 0.10, 0.10, 0.05, 0.10, 0.10, 0.23, 0.25] := by
  simp [TICKERS, WEIGHTS]

/-- C3: for every weight configuration with non-negative entries and every
provider input, the composite lies between the least and the greatest of the
per-instrument scores the pipeline computed, and it always lies in
`[0, 100]`. -/
theorem composite_within_score_range (wf : String → ℝ) (erf : ℝ → ℝ)
    (fetch : String → Except String (List ℝ))
    (hw : ∀ t ∈ TICKERS, 0 ≤ wf t) :
    ∃ lo hi,
      lo ∈ (computeFromFetch wf erf fetch).2 ∧
      hi ∈ (computeFromFetch wf erf fetch).2 ∧
      (∀ x ∈ (computeFromFetch wf erf fetch).2, lo ≤ x ∧ x ≤ hi) ∧
      lo ≤ (computeFromFetch wf erf fetch).1 ∧
      (computeFromFetch wf erf fetch).1 ≤ hi ∧
      0 ≤ (computeFromFetch wf erf fetch).1 ∧
      (computeFromFetch wf erf fetch).1 ≤ 100 := by
  have hscores : (computeFromFetch wf erf fetch).2 =
      TICKERS.map (fun t => calculate erf (get_history fetch t)) := by
    simp [computeFromFetch, compute, computeScores]
  have hne : (computeFromFetch wf erf fetch).2 ≠ [] := by
    rw [hscores]; simp [TICKERS]
  obtain ⟨lo, hi, hlo, hhi, hb⟩ := exists_min_max _ hne
  have hcomp : (computeFromFetch wf erf fetch).1 =
      aggregate (computeFromFetch wf erf fetch).2 (TICKERS.map wf) := by
    simp [computeFromFetch, compute]
  have hwlist : ∀ w ∈ TICKERS.map wf, 0 ≤ w := by
    intro w hwmem
    obtain ⟨t, ht, rfl⟩ := List.mem_map.mp hwmem
    exact hw t ht
  have hlenw : (TICKERS.map wf).length = (computeFromFetch wf erf fetch).2.length := by
    rw [hscores]; simp
  have hcore := composite_core_between _ (TICKERS.map wf) lo hi hlenw hne hwlist hb
  have hbounds : ∀ x ∈ (computeFromFetch wf erf fetch).2, 0 ≤ x ∧ x ≤ 100 := by
    intro x hx
    rw [hscores] at hx
    obtain ⟨t, _, rfl⟩ := List.mem_map.mp hx
    exact calculate_bounds erf _
  have hagg : (computeFromFetch wf erf fetch).1 =
      (if (TICKERS.map wf).sum > 0 then
        (List.zipWith (fun w v => w * v) (TICKERS.map wf)
          (computeFromFetch wf erf fetch).2).sum / (TICKERS.map wf).sum
      else (computeFromFetch wf erf fetch).2.sum /
        (computeFromFetch wf erf fetch).2.length) := by
    rw [hcomp]
    exact aggregate_unclamped _ _ hlenw hne hwlist hbounds
  refine ⟨lo, hi, hlo, hhi, hb, ?_, ?_, ?_, ?_⟩
  · rw [hagg]; exact hcore.1
  · rw [hagg]; exact hcore.2
  · rw [hcomp]; exact (aggregate_clamped _ _).1
  · rw [hcomp]; exact (aggregate_clamped _ _).2

/-- Witness for C3: uniform weights, identity in place of `erf`, and a
provider that always fails. -/
theorem composite_within_score_range_witness :
    ∃ lo hi,
      lo ∈ (computeFromFetch (fun _ => 1) (fun x => x) (fun _ => Except.error "down")).2 ∧
      hi ∈ (computeFromFetch (fun _ => 1) (fun x => x) (fun _ => Except.error "down")).2 ∧
      (∀ x ∈ (computeFromFetch (fun _ => 1) (fun x => x) (fun _ => Except.error "down")).2,
        lo ≤ x ∧ x ≤ hi) ∧
      lo ≤ (computeFromFetch (fun _ => 1) (fun x => x) (fun _ => Except.error "down")).1 ∧
      (computeFromFetch (fun _ => 1) (fun x => x) (fun _ => Except.error "down")).1 ≤ hi ∧
      0 ≤ (computeFromFetch (fun _ => 1) (fun x => x) (fun _ => Except.error "down")).1 ∧
      (computeFromFetch (fun _ => 1) (fun x => x) (fun _ => Except.error "down")).1 ≤ 100 :=
  composite_within_score_range (fun _ => 1) (fun x => x)
    (fun _ => Except.error "down") (fun _ _ => zero_le_one)

/-- C8: the composite is the weighted average of the per-instrument scores;
with a zero total weight it falls back to the unweighted arithmetic mean
instead of failing. -/
theorem composite_is_weighted_average (scores weights : List ℝ)
    (hs : ∀ x ∈ scores, 0 ≤ x ∧ x ≤ 100) (hw : ∀ w ∈ weights, 0 ≤ w)
    (hlen : weights.length = scores.length) (hne : scores ≠ []) :
    (0 < weights.sum →
      aggregate scores weights =
        (List.zipWith (fun w v => w * v) weights scores).sum / weights.sum) ∧
    (weights.sum = 0 →
      aggregate scores weights = scores.sum / scores.length) := by
  have h := aggregate_unclamped scores weights hlen hne hw hs
  constructor
  · intro htot
    rw [h, if_pos htot]
  · intro htot
    rw [h, if_neg (by rw [htot]; exact lt_irrefl 0)]

/-- Witness for C8: both branches at concrete inputs — positive-total
weights `[1, 3]` and zero weights `[0, 0]` over the scores `[30, 70]`. -/
theorem composite_is_weighted_average_witness :
    aggregate [30, 70] [1, 3] =
      (List.zipWith (fun w v => w * v) [1, 3] [30, 70]).sum / ([1, 3] : List ℝ).sum ∧
    aggregate [30, 70] [0, 0] = ([30, 70] : List ℝ).sum / ([30, 70] : List ℝ).length := by
  have hs : ∀ x ∈ ([30, 70] : List ℝ), 0 ≤ x ∧ x ≤ 100 := by
    intro x hx
    rcases List.mem_cons.mp hx with rfl | hx
    · norm_num
    · rcases List.mem_cons.mp hx with rfl | hx
      · norm_num
      · simp at hx
  constructor
  · exact (composite_is_weighted_average [30, 70] [1, 3] hs
      (by intro w hwm; rcases List.mem_cons.mp hwm with rfl | hwm
          · norm_num
          · rcases List.mem_cons.mp hwm with rfl | hwm
            · norm_num
            · simp at hwm)
      (by simp) (by simp)).1 (by norm_num)
  · exact (composite_is_weighted_average [30, 70] [0, 0] hs
      (by intro w hwm; rcases List.mem_cons.mp hwm with rfl | hwm
          · norm_num
          · rcases List.mem_cons.mp hwm with rfl | hwm
            · norm_num
            · simp at hwm)
      (by simp) (by simp)).2 (by norm_num)

/-- C6: no error surfaces as a hard failure: a provider error becomes an
empty price series (`get_history` is total), an exception while scoring one
instrument is replaced by the neutral 50 in the score vector, and the
composite computation still completes with a full-length score vector and a
composite in `[0, 100]`. -/
theorem failures_never_propagate :
    (∀ (fetch : String → Except String (List ℝ)) (t e : String),
      fetch t = Except.error e → get_history fetch t = []) ∧
    (∀ (calcE : String → Except String ℝ) (i : ℕ) (hilt : i < TICKERS.length)
      (e : String), calcE (TICKERS.get ⟨i, hilt⟩) = Except.error e →
      (computeScores calcE)[i]? = some 50) ∧
    (∀ (wf : String → ℝ) (calcE : String → Except String ℝ),
      ((compute wf calcE).2).length = TICKERS.length ∧
      0 ≤ (compute wf calcE).1 ∧ (compute wf calcE).1 ≤ 100) := by
  refine ⟨fun fetch t e he => ?_, fun calcE i hilt e he => ?_,
    fun wf calcE => ⟨?_, ?_, ?_⟩⟩
  · unfold get_history
    rw [he]
  · unfold computeScores
    rw [List.getElem?_map, List.getElem?_eq_getElem hilt, Option.map_some']
    rw [List.get_eq_getElem] at he
    rw [he]
  · show (computeScores calcE).length = TICKERS.length
    simp [computeScores]
  · exact (aggregate_clamped _ _).1
  · exact (aggregate_clamped _ _).2

/-- Witness for C6: a provider that always fails yields an empty series,
and an indicator that raises is scored 50 in the first slot. -/
theorem failures_never_propagate_witness :
    get_history (fun _ => Except.error "down") "^VIX" = [] ∧
    (computeScores (fun _ => Except.error "boom"))[0]? = some 50 :=
  ⟨failures_never_propagate.1 (fun _ => Except.error "down") "^VIX" "down" rfl,
   failures_never_propagate.2.1 (fun _ => Except.error "boom") 0
     (by norm_num [TICKERS]) "boom" rfl⟩

/-- C7: when every fetch yields an empty price series, every per-instrument
score is exactly 50 and the composite is exactly 50. -/
theorem all_empty_fetch_neutral (erf : ℝ → ℝ)
    (fetch : String → Except String (List ℝ))
    (hempty : ∀ t, get_history fetch t = []) :
    (computeFromFetch WEIGHTS erf fetch).1 = 50 ∧
    (computeFromFetch WEIGHTS erf fetch).2 = [50, 50, 50, 50, 50, 50, 50, 50] := by
  have hnil : calculate erf ([] : List ℝ) = 50 := by
    unfold calculate
    norm_num
  have hscores : (computeFromFetch WEIGHTS erf fetch).2 =
      [50, 50, 50, 50, 50, 50, 50, 50] := by
    simp [computeFromFetch, compute, computeScores, TICKERS, hempty, hnil]
  refine ⟨?_, hscores⟩
  have hcomp : (computeFromFetch WEIGHTS erf fetch).1 =
      aggregate (computeFromFetch WEIGHTS erf fetch).2 (TICKERS.map WEIGHTS) := by
    simp [computeFromFetch, compute]
  rw [hcomp, hscores, weights_list_eval]
  unfold aggregate
  norm_num

/-- Witness for C7: the provider that always reports a transport error. -/
theorem all_empty_fetch_neutral_witness :
    (computeFromFetch WEIGHTS (fun x => x) (fun _ => Except.error "down")).1 = 50 ∧
    (computeFromFetch WEIGHTS (fun x => x) (fun _ => Except.error "down")).2 =
      [50, 50, 50, 50, 50, 50, 50, 50] :=
  all_empty_fetch_neutral (fun x => x) (fun _ => Except.error "down")
    (fun _ => rfl)

/-- C10: the shipped configuration has 8 instruments, all weights are
non-negative and they sum exactly to 1; hence the total weight is positive
and `compute` always takes the weighted-average branch (the unweighted-mean
fallback is unreachable under the shipped configuration). -/
theorem shipped_weights_sum_one :
    TICKERS.length = 8 ∧
    (∀ t ∈ TICKERS, 0 ≤ WEIGHTS t) ∧
    (TICKERS.map WEIGHTS).sum = 1 ∧
    (∀ calcE : String → Except String ℝ,
      (compute WEIGHTS calcE).1 =
        max 0 (min 100
          ((List.zipWith (fun w v => w * v) (TICKERS.map WEIGHTS)
            (computeScores calcE)).sum / (TICKERS.map WEIGHTS).sum))) := by
  have hsum : (TICKERS.map WEIGHTS).sum = 1 := by
    rw [weights_list_eval]
    norm_num
  refine ⟨by simp [TICKERS], ?_, hsum, fun calcE => ?_⟩
  · intro t ht
    fin_cases ht <;> simp [WEIGHTS] <;> norm_num
  · have hpos : (TICKERS.map WEIGHTS).sum > 0 := by rw [hsum]; norm_num
    simp only [compute, aggregate]
    rw [if_pos hpos]

/-- Witness for C10: the gold weight is non-negative, and a concrete
`calcE` takes the weighted branch. -/
theorem shipped_weights_sum_one_witness :
    0 ≤ WEIGHTS "GC=F" ∧
    (compute WEIGHTS (fun _ => Except.ok 50)).1 =
      max 0 (min 100
        ((List.zipWith (fun w v => w * v) (TICKERS.map WEIGHTS)
          (computeScores (fun _ => Except.ok 50))).sum / (TICKERS.map WEIGHTS).sum)) :=
  ⟨shipped_weights_sum_one.2.1 "GC=F" (by simp [TICKERS]),
   shipped_weights_sum_one.2.2.2 (fun _ => Except.ok 50)⟩

/-- The returns series has one cell per price. -/
theorem pctChange_length (prices : List ℝ) :
    (pctChange prices).length = prices.length := by
  cases prices with
  | nil => rfl
  | cons p rest =>
    simp [pctChange, List.length_zip]

/-- For a price series of `n ≥ 11` points the last cell of the rolling
volatility is defined: it is 100 times the `ddof = 1` standard deviation of
the last 10 returns. -/
theorem volatilitySeries_getLast (prices : List ℝ)
    (hlen : 11 ≤ prices.length) :
    (volatilitySeries prices).getLast? =
      some (some (sampleStd
        (((prices.zip prices.tail).drop (prices.length - 11)).map ret) * 100)) := by
  obtain ⟨m, hm⟩ : ∃ m, prices.length = m + 1 := ⟨prices.length - 1, by omega⟩
  have hm10 : 10 ≤ m := by omega
  have hxs : (pctChange prices).length = prices.length := pctChange_length prices
  have hrange : List.range (pctChange prices).length =
      List.range m ++ [m] := by
    rw [hxs, hm, List.range_succ]
  have hlast : (volatilitySeries prices).getLast? =
      some (Option.map (fun v => v * 100)
        (rollWindow (window10 (pctChange prices) m))) := by
    unfold volatilitySeries rollingStd10
    rw [hrange, List.map_append, List.map_append]
    simp [List.getLast?_concat]
  have hwin : window10 (pctChange prices) m =
      ((prices.zip prices.tail).drop (prices.length - 11)).map
        (fun pc => some (ret pc)) := by
    unfold window10
    have htake : (pctChange prices).take (m + 1) = pctChange prices := by
      rw [List.take_of_length_le (by omega)]
    rw [htake]
    cases prices with
    | nil => simp at hlen
    | cons p rest =>
      have hdrop : m + 1 - 10 = (p :: rest).length - 11 + 1 := by
        simp only [List.length_cons] at hm ⊢
        omega
      rw [hdrop]
      show ((none :: ((p :: rest).zip rest).map (fun pc => some (ret pc))).drop
        ((p :: rest).length - 11 + 1)) = _
      rw [List.drop_succ_cons, ← List.map_drop]
      have : ((p :: rest).zip ((p :: rest).tail)) = ((p :: rest).zip rest) := rfl
      rw [this]
  have hwinstd : rollWindow (window10 (pctChange prices) m) =
      some (sampleStd
        (((prices.zip prices.tail).drop (prices.length - 11)).map ret)) := by
    rw [hwin]
    unfold rollWindow
    have hfm : (((prices.zip prices.tail).drop (prices.length - 11)).map
        (fun pc => some (ret pc))).filterMap id =
        ((prices.zip prices.tail).drop (prices.length - 11)).map ret := by
      rw [List.filterMap_map]
      have hcomp : (id ∘ fun pc : ℝ × ℝ => some (ret pc)) = some ∘ ret := rfl
      rw [hcomp, List.filterMap_eq_map]
    rw [hfm]
    have hzlen : (prices.zip prices.tail).length = prices.length - 1 := by
      rw [List.length_zip, List.length_tail]
      omega
    have h10 : (((prices.zip prices.tail).drop (prices.length - 11)).map
        ret).length = 10 := by
      rw [List.length_map, List.length_drop, hzlen]
      omega
    rw [if_pos (by rw [h10])]
  rw [hlast, hwinstd]
  rfl

/-- C9: for every price series with at least 11 observations (the embedding
carries no missing values), the current volatility reading that `calculate`
passes to normalisation is defined, equals the most recent element of the
rolling-volatility series after dropping undefined entries, and is itself a
member of the historical sample it is normalised against. -/
theorem current_vol_self_inclusion (erf : ℝ → ℝ) (prices : List ℝ)
    (hlen : 11 ≤ prices.length) :
    ∃ c, currentVol prices = some c ∧
      (volSeries prices).getLast? = some c ∧
      c ∈ volSeries prices ∧
      calculate erf prices = scale_with_history erf (volSeries prices) c := by
  obtain hlast := volatilitySeries_getLast prices hlen
  refine ⟨sampleStd (((prices.zip prices.tail).drop (prices.length - 11)).map ret) * 100,
    ?_, ?_, ?_, ?_⟩
  · unfold currentVol
    rw [hlast]
    rfl
  · obtain ⟨A, hA⟩ := List.getLast?_eq_some_iff.mp hlast
    unfold volSeries
    rw [hA, List.filterMap_append]
    simp [List.getLast?_concat]
  · obtain ⟨A, hA⟩ := List.getLast?_eq_some_iff.mp hlast
    unfold volSeries
    rw [hA, List.filterMap_append]
    simp
  · unfold calculate
    rw [if_neg (by omega)]
    have hcv : currentVol prices =
        some (sampleStd
          (((prices.zip prices.tail).drop (prices.length - 11)).map ret) * 100) := by
      unfold currentVol
      rw [hlast]
      rfl
    rw [hcv]

/-- Witness for C9 on a concrete 11-point price series. -/
theorem current_vol_self_inclusion_witness :
    ∃ c, currentVol [1, 2, 1, 2, 1, 2, 1, 2, 1, 2, 1] = some c ∧
      (volSeries [1, 2, 1, 2, 1, 2, 1, 2, 1, 2, 1]).getLast? = some c ∧
      c ∈ volSeries [1, 2, 1, 2, 1, 2, 1, 2, 1, 2, 1] ∧
      calculate (fun x => x) [1, 2, 1, 2, 1, 2, 1, 2, 1, 2, 1] =
        scale_with_history (fun x => x)
          (volSeries [1, 2, 1, 2, 1, 2, 1, 2, 1, 2, 1]) c :=
  current_vol_self_inclusion (fun x => x)
    [1, 2, 1, 2, 1, 2, 1, 2, 1, 2, 1] (by simp)

end MarketStress
